import Mathlib

/-!
# sego/stopwords.go — stop-word store

A shallow embedding of `stopwords.go`:

* Go strings are byte sequences (`GoString`), `len` is the number of bytes.
* A Go map value is a reference; map objects live in a `Heap`, so that two
  stores holding the same reference share every write.
* The exported package variable `DefaultStopWordsMap` is part of the state
  (a field of `Heap`): an importer may assign it, also `nil`.
* `*StopWords` receivers are passed and returned explicitly.
* File reads are a parameter `fs : FileSystem` (what `ioutil.ReadFile` returns).
* Locks are not modelled: every operation below is a sequential run.
-/

namespace Sego

/-! ## Go strings -/

/-- A Go `string`: an immutable sequence of bytes. -/
abbrev GoString := List UInt8

/-- The bytes of a source-code string literal (Go source is UTF-8). -/
def lit (s : String) : GoString := s.data.flatMap String.utf8EncodeChar

/-- The byte `'\n'`. -/
def newline : UInt8 := 0x0A

/-- Go `strings.Split(s, sep)` for a one-byte separator, the only way the
source calls it: the pieces of `s` between successive occurrences of `sep`
(one more piece than there are separators; `[""]` for the empty string). -/
def Split : GoString → UInt8 → List GoString
  | [], _ => [[]]
  | b :: rest, sep =>
    if b = sep then [] :: Split rest sep
    else
      match Split rest sep with
      | [] => [[b]]
      | piece :: pieces => (b :: piece) :: pieces

/-! ### UTF-8 decoding (Go package `unicode/utf8`) -/

/-- Go `utf8.RuneError`, U+FFFD. -/
def RuneError : Nat := 0xFFFD

/-- The range of second bytes Go's `acceptRanges` allows after lead byte `b0`. -/
def acceptRange (b0 : Nat) : Nat × Nat :=
  if b0 = 0xE0 then (0xA0, 0xBF)
  else if b0 = 0xED then (0x80, 0x9F)
  else if b0 = 0xF0 then (0x90, 0xBF)
  else if b0 = 0xF4 then (0x80, 0x8F)
  else (0x80, 0xBF)

/-- Whether `b` is a continuation byte `10xxxxxx`. -/
def isCont (b : Nat) : Bool := decide (0x80 ≤ b) && decide (b ≤ 0xBF)

/-- Go `utf8.DecodeRuneInString`: the first rune of `s` and its width in
bytes; `(RuneError, 0)` for the empty string, `(RuneError, 1)` for an
invalid or truncated encoding. -/
def DecodeRuneInString (s : GoString) : Nat × Nat :=
  match s with
  | [] => (RuneError, 0)
  | c0 :: t =>
    let s0 := c0.toNat
    if s0 < 0x80 then (s0, 1)
    else if s0 < 0xC2 ∨ 0xF4 < s0 then (RuneError, 1)
    else
      match t with
      | [] => (RuneError, 1)
      | c1 :: t1 =>
        let s1 := c1.toNat
        if s1 < (acceptRange s0).1 ∨ (acceptRange s0).2 < s1 then (RuneError, 1)
        else if s0 < 0xE0 then ((s0 % 32) * 64 + s1 % 64, 2)
        else
          match t1 with
          | [] => (RuneError, 1)
          | c2 :: t2 =>
            let s2 := c2.toNat
            if !isCont s2 then (RuneError, 1)
            else if s0 < 0xF0 then ((s0 % 16) * 4096 + (s1 % 64) * 64 + s2 % 64, 3)
            else
              match t2 with
              | [] => (RuneError, 1)
              | c3 :: _ =>
                let s3 := c3.toNat
                if !isCont s3 then (RuneError, 1)
                else ((s0 % 8) * 262144 + (s1 % 64) * 4096 + (s2 % 64) * 64 + s3 % 64, 4)

/-- Go `utf8.RuneStart`: `b` is not a continuation byte. -/
def RuneStart (b : UInt8) : Bool := !isCont b.toNat

/-- The backward search of `utf8.DecodeLastRuneInString`: starting at index
`start`, step down to the nearest rune-start byte, not going below `lim`
(at most three steps, `UTFMax - 1`). The result is the index the loop stops
at, as an integer (it may stop one below `lim`). -/
def findRuneStart (s : GoString) (lim : Int) : Nat → Int → Int
  | 0, start => start
  | fuel + 1, start =>
    if start < lim then start
    else if (s.get? start.toNat).elim false RuneStart then start
    else findRuneStart s lim fuel (start - 1)

/-- Go `utf8.DecodeLastRuneInString`: the last rune of `s` and its width. -/
def DecodeLastRuneInString (s : GoString) : Nat × Nat :=
  let n := s.length
  if n = 0 then (RuneError, 0)
  else
    let r := (s.getD (n - 1) 0).toNat
    if r < 0x80 then (r, 1)
    else
      let lim : Int := max 0 ((n : Int) - 4)
      let start := max 0 (findRuneStart s lim 3 ((n : Int) - 2))
      let (r, size) := DecodeRuneInString (s.drop start.toNat)
      if start.toNat + size ≠ n then (RuneError, 1) else (r, size)

/-- Go `unicode.IsSpace`: the Latin-1 spaces and the `White_Space` table. -/
def IsSpace (r : Nat) : Bool :=
  if r ≤ 0xFF then
    decide (r = 0x09 ∨ r = 0x0A ∨ r = 0x0B ∨ r = 0x0C ∨ r = 0x0D ∨ r = 0x20 ∨ r = 0x85 ∨ r = 0xA0)
  else
    decide (r = 0x1680 ∨ (0x2000 ≤ r ∧ r ≤ 0x200A) ∨ r = 0x2028 ∨ r = 0x2029 ∨ r = 0x202F
      ∨ r = 0x205F ∨ r = 0x3000)

/-- Go `strings.TrimLeftFunc(s, unicode.IsSpace)`: drop leading white-space
runes. `fuel` bounds the number of runes inspected; `s.length` suffices. -/
def trimLeftSpace : Nat → GoString → GoString
  | 0, s => s
  | fuel + 1, s =>
    match s with
    | [] => []
    | _ :: _ =>
      let (r, size) := DecodeRuneInString s
      if IsSpace r then trimLeftSpace fuel (s.drop size) else s

/-- Go `strings.TrimRightFunc(s, unicode.IsSpace)`: drop trailing white-space
runes, found by decoding backwards from the end. `fuel` bounds the number of
runes inspected; `s.length` suffices. -/
def trimRightSpace : Nat → GoString → GoString
  | 0, s => s
  | fuel + 1, s =>
    match s with
    | [] => []
    | _ :: _ =>
      let (r, size) := DecodeLastRuneInString s
      if IsSpace r then trimRightSpace fuel (s.take (s.length - size)) else s

/-- Go `strings.TrimSpace(s)`: `s` without leading and trailing white space,
as defined by Unicode. -/
def TrimSpace (s : GoString) : GoString :=
  let t := trimLeftSpace s.length s
  trimRightSpace t.length t

/-! ## Maps, the heap and errors -/

/-- The contents of a `StopWordsMap` object (`map[string]interface{}` whose
values are all `nil`): its set of keys. -/
abbrev StopWordsMap := Finset GoString

/-- A Go map value: `nil`, or a reference to a map object on the heap. -/
abbrev MapRef := Option Nat

/-- The map objects that exist, by address; `next` is the first address not
yet handed out by `make`; `DefaultStopWordsMap` is the current value of the
package variable of that name (`var DefaultStopWordsMap = StopWordsMap{...}`),
which any importer may rebind. -/
structure Heap where
  maps : Nat → StopWordsMap
  next : Nat
  DefaultStopWordsMap : MapRef

/-- Allocate a new map object holding `m`: its reference and the new heap. -/
def Heap.alloc (h : Heap) (m : StopWordsMap) : Nat × Heap :=
  (h.next, { h with maps := fun a => if a = h.next then m else h.maps a, next := h.next + 1 })

/-- The statement `m[word] = nil` on the map object at address `a`. -/
def Heap.store (h : Heap) (a : Nat) (word : GoString) : Heap :=
  { h with maps := fun b => if b = a then insert word (h.maps a) else h.maps b }

/-- The keys seen through a map value; a `nil` map reads as empty. -/
def Heap.keys (h : Heap) : MapRef → StopWordsMap
  | none => ∅
  | some a => h.maps a

/-- Go `error` values that occur in this file. -/
inductive GoError where
  /-- The value of `errors.New(text)`. -/
  | errorsNew (text : String)
  /-- An error returned by `ioutil.ReadFile`, identified by `code`. -/
  | readFile (code : Nat)
  deriving DecidableEq, Repr

/-- What `ioutil.ReadFile(path)` returns for each path. -/
abbrev FileSystem := GoString → Except GoError GoString

/-! ## stopwords.go -/

/-- The 31 keys of the composite literal that initialises `DefaultStopWordsMap`. -/
def defaultWords : List GoString :=
  [lit "the", lit "of", lit "is", lit "and", lit "to", lit "in", lit "that", lit "we",
   lit "for", lit "an", lit "are", lit "by", lit "be", lit "as", lit "on", lit "with",
   lit "can", lit "if", lit "from", lit "which", lit "you", lit "it", lit "this",
   lit "then", lit "at", lit "have", lit "all", lit "not", lit "one", lit "has", lit "or"]

/-- The state right after package initialisation: only the builtin map
exists, at address 0, and the variable `DefaultStopWordsMap` refers to it. -/
def initHeap : Heap :=
  { maps := fun a => if a = 0 then defaultWords.toFinset else ∅, next := 1,
    DefaultStopWordsMap := some 0 }

/-- The struct `StopWords` (its embedded `sync.RWMutex` is not modelled). -/
structure StopWords where
  stopWordsMap : MapRef
  deriving DecidableEq, Repr

/-- The set of words the store currently holds. -/
def StopWords.words (s : StopWords) (h : Heap) : StopWordsMap := h.keys s.stopWordsMap

/-- `func (s *StopWords) Add(word string)`: `s.stopWordsMap[word] = nil`.
Writing to a `nil` map panics (`none`). -/
def StopWords.Add (s : StopWords) (word : GoString) (h : Heap) : Option Heap :=
  match s.stopWordsMap with
  | none => none
  | some a => some (h.store a word)

/-- Lines 120-127 of `loadStopWordsDictionary`: the map built from the file
content `b`, starting from `make(StopWordsMap)`. -/
def parseDictionary (b : GoString) : StopWordsMap :=
  (Split b newline).foldl
    (fun wm line =>
      let line := TrimSpace line
      if line ≠ [] then insert line wm else wm)
    ∅

/-- `func loadStopWordsDictionary(filepath string) (wm StopWordsMap, err error)`. -/
def loadStopWordsDictionary (fs : FileSystem) (filepath : GoString) (h : Heap) :
    (MapRef × Option GoError) × Heap :=
  match fs filepath with
  | .error err => ((none, some err), h)
  | .ok b =>
    let (wm, h1) := h.alloc (parseDictionary b)
    ((some wm, none), h1)

/-- `func NewStopWords(filepath ...string) (s *StopWords, err error)`.
The first component is the pointer `s` (`none` would be a nil pointer). -/
def NewStopWords (fs : FileSystem) (filepath : List GoString) (h : Heap) :
    (Option StopWords × Option GoError) × Heap :=
  let s : StopWords := { stopWordsMap := none }
  match filepath with
  | [] => ((some { s with stopWordsMap := h.DefaultStopWordsMap }, none), h)
  | [path] =>
    let ((m, err), h1) := loadStopWordsDictionary fs path h
    ((some { s with stopWordsMap := m }, err), h1)
  | _ :: _ :: _ =>
    ((some s, some (GoError.errorsNew "Only one stop words dictionary could be loaded.")), h)

/-- `func (s *StopWords) IsStopWord(word string) bool`. -/
def StopWords.IsStopWord (s : StopWords) (word : GoString) (h : Heap) : Bool :=
  let ok := decide (word ∈ h.keys s.stopWordsMap)
  if ok then true
  else
    let n := word.length
    if n = 0 ∨ n = 1 then true
    else false

/-- `func (s *StopWords) LoadDictionary(filepath string) error`: the store
after the call, the returned error, and the heap. -/
def StopWords.LoadDictionary (fs : FileSystem) (s : StopWords) (filepath : GoString)
    (h : Heap) : (StopWords × Option GoError) × Heap :=
  let ((m, err), h1) := loadStopWordsDictionary fs filepath h
  match err with
  | some e => ((s, some e), h1)
  | none => (({ s with stopWordsMap := m }, none), h1)

/-- Modelled from the spec: the type `Token` is declared elsewhere in the
package; a Token exposes its literal matched text (`Text()`). -/
structure Token where
  Text : GoString
  deriving DecidableEq, Repr

/-- Modelled from the spec: the type `Segment` is declared elsewhere in the
package; a Segment wraps a Token (`Token()`). -/
structure Segment where
  Token : Token
  deriving DecidableEq, Repr

/-- `func (s *StopWords) RemoveStopWords(in []Segment) (out []Segment)`. -/
def StopWords.RemoveStopWords (s : StopWords) (input : List Segment) (h : Heap) :
    List Segment :=
  input.foldl
    (fun out seg => if !s.IsStopWord seg.Token.Text h then out ++ [seg] else out)
    []

/-- The short-word rule evaluated first, the set lookup second: the other
order of evaluation the specification allows for `Contains`. -/
def StopWords.IsStopWord_shortFirst (s : StopWords) (word : GoString) (h : Heap) : Bool :=
  if word.length = 0 ∨ word.length = 1 then true
  else decide (word ∈ h.keys s.stopWordsMap)

/-- A segment whose token text is `text`. -/
def seg (text : String) : Segment := { Token := { Text := lit text } }

/-- A file system with one readable file. -/
def oneFile (path content : GoString) : FileSystem :=
  fun p => if p = path then .ok content else .error (GoError.readFile 2)

/-- One call on a store: `Add(word)`, or `LoadDictionary(filepath)` made while
the file system is `fs`. -/
inductive Call where
  | Add (word : GoString)
  | LoadDictionary (fs : FileSystem) (filepath : GoString)

/-- Run one call on the store: the store and heap afterwards, `none` when the
call panics. The error `LoadDictionary` returns is dropped. -/
def StopWords.call (s : StopWords) (h : Heap) : Call → Option (StopWords × Heap)
  | .Add word => (s.Add word h).map fun h1 => (s, h1)
  | .LoadDictionary fs filepath =>
    some ((s.LoadDictionary fs filepath h).1.1, (s.LoadDictionary fs filepath h).2)

/-- Run a sequence of calls on the store, first to last. -/
def StopWords.calls (s : StopWords) (h : Heap) : List Call → Option (StopWords × Heap)
  | [] => some (s, h)
  | c :: cs =>
    match s.call h c with
    | none => none
    | some (s1, h1) => s1.calls h1 cs

/-- The two ways the code changes the heap: the map write of `Add` (on the
map of any store) and the allocation in `loadStopWordsDictionary`. -/
inductive HeapEvent where
  | store (a : Nat) (word : GoString)
  | alloc (m : StopWordsMap)

/-- The heap after one event. -/
def Heap.event (h : Heap) : HeapEvent → Heap
  | .store a word => h.store a word
  | .alloc m => (h.alloc m).2

/-- The heap after a sequence of events, first to last. -/
def Heap.events (h : Heap) (es : List HeapEvent) : Heap := es.foldl Heap.event h

/-- The byte `'\r'`. -/
def carriageReturn : UInt8 := 0x0D

/-- The content `c` with every "\r\n" replaced by "\n", scanning left to
right (Go `strings.Replace(c, "\r\n", "\n", -1)`): the LF form of a CRLF file. -/
def replaceCRLF : GoString → GoString
  | [] => []
  | [b] => [b]
  | b :: b1 :: rest =>
    if b = carriageReturn ∧ b1 = newline then newline :: replaceCRLF rest
    else b :: replaceCRLF (b1 :: rest)

/-- The first rune of `s` is white space (`unicode.IsSpace`). -/
def hasLeadingSpace (s : GoString) : Bool := IsSpace (DecodeRuneInString s).1

/-- The last rune of `s` is white space (`unicode.IsSpace`). -/
def hasTrailingSpace (s : GoString) : Bool := IsSpace (DecodeLastRuneInString s).1

/-- A line of the CRLF form is the line of the LF form, or that line
followed by one carriage return. -/
def sameUpToCR (l l1 : GoString) : Prop := l1 = l ∨ l1 = l ++ [carriageReturn]

/-! ## Lemmas -/

theorem foldl_append_filter (p : Segment → Bool) (input acc : List Segment) :
    input.foldl (fun out seg => if p seg then out ++ [seg] else out) acc
      = acc ++ input.filter p := by
  induction input generalizing acc with
  | nil => simp
  | cons x xs ih =>
    simp only [List.foldl_cons, ih, List.filter_cons]
    by_cases hx : p x = true <;> simp [hx]

theorem mem_foldl_insert (lines : List GoString) (acc : StopWordsMap) (x : GoString) :
    x ∈ lines.foldl
        (fun wm line =>
          let line := TrimSpace line
          if line ≠ [] then insert line wm else wm) acc
      ↔ x ∈ acc ∨ (x ≠ [] ∧ ∃ line ∈ lines, x = TrimSpace line) := by
  induction lines generalizing acc with
  | nil => simp
  | cons l ls ih =>
    simp only [List.foldl_cons, ih, List.mem_cons]
    by_cases hl : TrimSpace l = []
    · simp only [hl, ne_eq, not_true_eq_false, if_false]
      constructor
      · rintro (hx | ⟨hne, line, hmem, rfl⟩)
        · exact Or.inl hx
        · exact Or.inr ⟨hne, line, Or.inr hmem, rfl⟩
      · rintro (hx | ⟨hne, line, hmem | hmem, rfl⟩)
        · exact Or.inl hx
        · subst hmem; exact absurd hl hne
        · exact Or.inr ⟨hne, line, hmem, rfl⟩
    · simp only [ne_eq, hl, not_false_eq_true, if_true, Finset.mem_insert]
      constructor
      · rintro ((rfl | hx) | ⟨hne, line, hmem, rfl⟩)
        · exact Or.inr ⟨hl, l, Or.inl rfl, rfl⟩
        · exact Or.inl hx
        · exact Or.inr ⟨hne, line, Or.inr hmem, rfl⟩
      · rintro (hx | ⟨hne, line, hmem | hmem, rfl⟩)
        · exact Or.inl (Or.inr hx)
        · subst hmem; exact Or.inl (Or.inl rfl)
        · exact Or.inr ⟨hne, line, hmem, rfl⟩

theorem mem_parseDictionary (c x : GoString) :
    x ∈ parseDictionary c ↔ x ≠ [] ∧ ∃ line ∈ Split c newline, x = TrimSpace line := by
  unfold parseDictionary
  rw [mem_foldl_insert]
  simp

theorem loadStopWordsDictionary_ok (fs : FileSystem) (path c : GoString) (h : Heap)
    (hread : fs path = .ok c) :
    loadStopWordsDictionary fs path h
      = ((some h.next, none), (h.alloc (parseDictionary c)).2) := by
  simp [loadStopWordsDictionary, hread, Heap.alloc]

theorem loadStopWordsDictionary_error (fs : FileSystem) (path : GoString) (e : GoError)
    (h : Heap) (hread : fs path = .error e) :
    loadStopWordsDictionary fs path h = ((none, some e), h) := by
  simp [loadStopWordsDictionary, hread]

theorem keys_alloc (h : Heap) (m : StopWordsMap) :
    (h.alloc m).2.keys (some h.next) = m := by
  simp [Heap.alloc, Heap.keys]

theorem IsStopWord_eq_true (s : StopWords) (h : Heap) (w : GoString) :
    s.IsStopWord w h = true ↔ (w ∈ s.words h ∨ w.length = 0 ∨ w.length = 1) := by
  unfold StopWords.IsStopWord StopWords.words
  by_cases hm : w ∈ h.keys s.stopWordsMap
  · simp [hm]
  · by_cases hl : w.length = 0 ∨ w.length = 1
    · simp [hm, hl]
    · simp only [hm, decide_False, Bool.false_eq_true, if_false, hl, false_or]

theorem LoadDictionary_ok (fs : FileSystem) (s : StopWords) (path c : GoString) (h : Heap)
    (hread : fs path = .ok c) :
    s.LoadDictionary fs path h
      = (({ stopWordsMap := some h.next }, none), (h.alloc (parseDictionary c)).2) := by
  simp [StopWords.LoadDictionary, loadStopWordsDictionary_ok fs path c h hread]

theorem LoadDictionary_error (fs : FileSystem) (s : StopWords) (path : GoString)
    (e : GoError) (h : Heap) (hread : fs path = .error e) :
    s.LoadDictionary fs path h = ((s, some e), h) := by
  simp [StopWords.LoadDictionary, loadStopWordsDictionary_error fs path e h hread]

theorem NewStopWords_file_ok (fs : FileSystem) (path c : GoString) (h : Heap)
    (hread : fs path = .ok c) :
    NewStopWords fs [path] h
      = ((some { stopWordsMap := some h.next }, none), (h.alloc (parseDictionary c)).2) := by
  simp [NewStopWords, loadStopWordsDictionary_ok fs path c h hread]

theorem Add_some (s : StopWords) (w : GoString) (h h1 : Heap) (hadd : s.Add w h = some h1) :
    ∃ a, s.stopWordsMap = some a ∧ h1 = h.store a w := by
  unfold StopWords.Add at hadd
  cases hs : s.stopWordsMap with
  | none => simp [hs] at hadd
  | some a =>
    simp only [hs, Option.some.injEq] at hadd
    exact ⟨a, rfl, hadd.symm⟩

theorem words_after_Add (s : StopWords) (w : GoString) (h h1 : Heap)
    (hadd : s.Add w h = some h1) : s.words h1 = insert w (s.words h) := by
  obtain ⟨a, hs, rfl⟩ := Add_some s w h h1 hadd
  simp [StopWords.words, Heap.keys, Heap.store, hs]

theorem NewStopWords_ok_map_ne_nil (fs : FileSystem) (paths : List GoString) (h0 h : Heap)
    (s : StopWords) (hnew : NewStopWords fs paths h0 = ((some s, none), h))
    (hvar : paths = [] → h0.DefaultStopWordsMap ≠ none) :
    ∃ a, s.stopWordsMap = some a := by
  unfold NewStopWords at hnew
  match paths, hnew, hvar with
  | [], hnew, hvar =>
    simp only [Prod.mk.injEq, Option.some.injEq, and_true, true_and] at hnew
    obtain ⟨a, ha⟩ := Option.ne_none_iff_exists'.mp (hvar rfl)
    exact ⟨a, by rw [← hnew.1]; exact ha⟩
  | [path], hnew, _ =>
    unfold loadStopWordsDictionary at hnew
    cases hread : fs path with
    | error e => simp [hread] at hnew
    | ok c =>
      simp only [hread, Heap.alloc, Prod.mk.injEq, Option.some.injEq, and_true, true_and] at hnew
      exact ⟨h0.next, by rw [← hnew.1]⟩
  | _ :: _ :: _, hnew, _ => simp at hnew

theorem RemoveStopWords_filter (s : StopWords) (h : Heap) (input : List Segment) :
    s.RemoveStopWords input h
      = input.filter (fun seg => !s.IsStopWord seg.Token.Text h) := by
  unfold StopWords.RemoveStopWords
  rw [foldl_append_filter (fun seg => !s.IsStopWord seg.Token.Text h)]
  simp

theorem IsStopWord_Add_of_ne (s : StopWords) (w v : GoString) (h h1 : Heap)
    (hadd : s.Add w h = some h1) (hv : v ≠ w) :
    s.IsStopWord v h1 = s.IsStopWord v h := by
  rw [Bool.eq_iff_iff, IsStopWord_eq_true, IsStopWord_eq_true,
    words_after_Add s w h h1 hadd, Finset.mem_insert]
  simp [hv]

theorem IsStopWord_Add_self (s : StopWords) (w : GoString) (h h1 : Heap)
    (hadd : s.Add w h = some h1) : s.IsStopWord w h1 = true := by
  rw [IsStopWord_eq_true, words_after_Add s w h h1 hadd]
  exact Or.inl (Finset.mem_insert_self _ _)

theorem NewStopWords_file_error (fs : FileSystem) (path : GoString) (e : GoError) (h : Heap)
    (hread : fs path = .error e) :
    NewStopWords fs [path] h = ((some { stopWordsMap := none }, some e), h) := by
  simp [NewStopWords, loadStopWordsDictionary_error fs path e h hread]

theorem store_eq_self (h : Heap) (a : Nat) (w : GoString) (hw : w ∈ h.maps a) :
    h.store a w = h := by
  cases h with
  | mk maps next dflt =>
    simp only [Heap.store, Heap.mk.injEq, and_true]
    funext b
    by_cases hb : b = a
    · subst hb
      simp only [if_true]
      exact Finset.insert_eq_of_mem hw
    · simp [hb]

/-- On every heap reached from package initialisation by map writes and
allocations the variable still refers to the builtin map object at address
0, which still holds the 31 builtin words. -/
theorem builtin_intact_events (es : List HeapEvent) :
    1 ≤ (initHeap.events es).next
    ∧ (initHeap.events es).DefaultStopWordsMap = some 0
    ∧ ∀ w ∈ defaultWords, w ∈ (initHeap.events es).maps 0 := by
  have key : ∀ (es : List HeapEvent) (h : Heap),
      (1 ≤ h.next ∧ h.DefaultStopWordsMap = some 0 ∧ ∀ w ∈ defaultWords, w ∈ h.maps 0) →
      (1 ≤ (h.events es).next ∧ (h.events es).DefaultStopWordsMap = some 0
        ∧ ∀ w ∈ defaultWords, w ∈ (h.events es).maps 0) := by
    intro es
    induction es with
    | nil => intro h hh; exact hh
    | cons e es ih =>
      intro h hh
      have : h.events (e :: es) = (h.event e).events es := rfl
      rw [this]
      apply ih
      cases e with
      | store a word =>
        refine ⟨hh.1, hh.2.1, fun w hw => ?_⟩
        simp only [Heap.event, Heap.store]
        by_cases ha : 0 = a
        · subst ha
          simp only [if_true]
          exact Finset.mem_insert_of_mem (hh.2.2 w hw)
        · simp only [ha, if_false]
          exact hh.2.2 w hw
      | alloc m =>
        refine ⟨by simp [Heap.event, Heap.alloc], hh.2.1, fun w hw => ?_⟩
        have hne : ¬ (0 = h.next) := by omega
        simp only [Heap.event, Heap.alloc, hne, if_false]
        exact hh.2.2 w hw
  apply key
  exact ⟨by decide, rfl, fun w hw => by simp [initHeap, hw]⟩

theorem calls_keep_map (s : StopWords) (h : Heap) (cs : List Call)
    (hs : ∃ a, s.stopWordsMap = some a) :
    ∃ (s1 : StopWords) (h1 : Heap),
      s.calls h cs = some (s1, h1) ∧ ∃ a, s1.stopWordsMap = some a := by
  induction cs generalizing s h with
  | nil => exact ⟨s, h, rfl, hs⟩
  | cons c cs ih =>
    cases c with
    | Add word =>
      obtain ⟨a, ha⟩ := hs
      have hstep : s.call h (Call.Add word) = some (s, h.store a word) := by
        simp [StopWords.call, StopWords.Add, ha]
      obtain ⟨s1, h1, hrun, hmap⟩ := ih s (h.store a word) ⟨a, ha⟩
      exact ⟨s1, h1, by simp only [StopWords.calls, hstep]; exact hrun, hmap⟩
    | LoadDictionary fs filepath =>
      have hstep : s.call h (Call.LoadDictionary fs filepath)
          = some ((s.LoadDictionary fs filepath h).1.1, (s.LoadDictionary fs filepath h).2) := rfl
      have hmap1 : ∃ a, (s.LoadDictionary fs filepath h).1.1.stopWordsMap = some a := by
        cases hread : fs filepath with
        | error e => rw [LoadDictionary_error fs s filepath e h hread]; exact hs
        | ok c => rw [LoadDictionary_ok fs s filepath c h hread]; exact ⟨h.next, rfl⟩
      obtain ⟨s1, h1, hrun, hmap⟩ := ih _ (s.LoadDictionary fs filepath h).2 hmap1
      exact ⟨s1, h1, by simp only [StopWords.calls, hstep]; exact hrun, hmap⟩

theorem Split_ne_nil (c : GoString) (sep : UInt8) : Split c sep ≠ [] := by
  induction c with
  | nil => simp [Split]
  | cons b rest ih =>
    unfold Split
    by_cases hb : b = sep
    · simp [hb]
    · simp only [hb, if_false]
      cases hsp : Split rest sep with
      | nil => simp
      | cons piece pieces => simp

theorem Split_append (a b : GoString) (sep : UInt8) :
    Split (a ++ sep :: b) sep = Split a sep ++ Split b sep := by
  induction a with
  | nil => simp [Split]
  | cons x xs ih =>
    by_cases hx : x = sep
    · simp [Split, hx, ih]
    · cases hsp : Split xs sep with
      | nil => exact absurd hsp (Split_ne_nil xs sep)
      | cons piece pieces =>
        have hl : Split (x :: (xs ++ sep :: b)) sep
            = (x :: piece) :: (pieces ++ Split b sep) := by
          rw [Split]
          simp [hx, ih, hsp]
        have hr : Split (x :: xs) sep = (x :: piece) :: pieces := by
          rw [Split]
          simp [hx, hsp]
        rw [List.cons_append, hl, hr]
        rfl

theorem parseDictionary_congr (c d : GoString)
    (hlines : ∀ l : GoString, l ∈ Split c newline ↔ l ∈ Split d newline) :
    parseDictionary c = parseDictionary d := by
  ext x
  simp only [mem_parseDictionary, hlines]

theorem IsSpace_RuneError : IsSpace RuneError = false := by decide

theorem Decode_append (x y : GoString) :
    DecodeRuneInString (x ++ y) = DecodeRuneInString x ∨ (DecodeRuneInString x).1 = RuneError := by
  match x with
  | [] => right; rfl
  | [c0] =>
    simp only [List.singleton_append, DecodeRuneInString]
    split_ifs <;> simp
  | [c0, c1] =>
    simp only [List.cons_append, List.nil_append, DecodeRuneInString]
    split_ifs <;> simp
  | [c0, c1, c2] =>
    simp only [List.cons_append, List.nil_append, DecodeRuneInString]
    split_ifs <;> simp
  | c0 :: c1 :: c2 :: c3 :: rest =>
    left
    simp only [List.cons_append, DecodeRuneInString]

theorem Decode_size_pos (s : GoString) (hs : s ≠ []) : 1 ≤ (DecodeRuneInString s).2 := by
  match s, hs with
  | [c0], _ => simp only [DecodeRuneInString]; split_ifs <;> simp
  | [c0, c1], _ => simp only [DecodeRuneInString]; split_ifs <;> simp
  | [c0, c1, c2], _ => simp only [DecodeRuneInString]; split_ifs <;> simp
  | c0 :: c1 :: c2 :: c3 :: rest, _ => simp only [DecodeRuneInString]; split_ifs <;> simp

theorem Decode_size_le (s : GoString) : (DecodeRuneInString s).2 ≤ s.length := by
  match s with
  | [] => simp [DecodeRuneInString]
  | [c0] => simp only [DecodeRuneInString]; split_ifs <;> simp
  | [c0, c1] => simp only [DecodeRuneInString]; split_ifs <;> simp
  | [c0, c1, c2] => simp only [DecodeRuneInString]; split_ifs <;> simp
  | c0 :: c1 :: c2 :: c3 :: rest => simp only [DecodeRuneInString]; split_ifs <;> simp

theorem Decode_append_ascii (l : GoString) (b : UInt8) (hl : l ≠ []) (hb : b.toNat < 0x80) :
    DecodeRuneInString (l ++ [b]) = DecodeRuneInString l := by
  have hc : isCont b.toNat = false := by simp [isCont]; omega
  have ha : ∀ n : Nat, b.toNat < (acceptRange n).1 := by
    intro n; unfold acceptRange; split_ifs <;> simp <;> omega
  match l, hl with
  | [c0], _ =>
    simp only [List.singleton_append, DecodeRuneInString, ha, true_or, if_true]
  | [c0, c1], _ =>
    simp only [List.cons_append, List.nil_append, DecodeRuneInString, hc]
    split_ifs <;> simp_all
  | [c0, c1, c2], _ =>
    simp only [List.cons_append, List.nil_append, DecodeRuneInString, hc]
    split_ifs <;> simp_all
  | c0 :: c1 :: c2 :: c3 :: rest, _ =>
    simp only [List.cons_append, DecodeRuneInString]

theorem trimLeftSpace_succ (fuel : Nat) (s : GoString) :
    trimLeftSpace (fuel + 1) s
      = if IsSpace (DecodeRuneInString s).1 then
          trimLeftSpace fuel (s.drop (DecodeRuneInString s).2)
        else s := by
  cases s with
  | nil => simp [trimLeftSpace, DecodeRuneInString, IsSpace_RuneError]
  | cons c t => simp only [trimLeftSpace]

theorem trimRightSpace_succ (fuel : Nat) (s : GoString) :
    trimRightSpace (fuel + 1) s
      = if IsSpace (DecodeLastRuneInString s).1 then
          trimRightSpace fuel (s.take (s.length - (DecodeLastRuneInString s).2))
        else s := by
  cases s with
  | nil => simp [trimRightSpace, DecodeLastRuneInString, IsSpace_RuneError]
  | cons c t => simp only [trimRightSpace]

theorem trimLeftSpace_suffix (fuel : Nat) (s : GoString) : trimLeftSpace fuel s <:+ s := by
  induction fuel generalizing s with
  | zero => exact List.suffix_refl s
  | succ n ih =>
    rw [trimLeftSpace_succ]
    split_ifs
    · exact (ih _).trans (List.drop_suffix _ _)
    · exact List.suffix_refl s

theorem trimRightSpace_initial (fuel : Nat) (s : GoString) : trimRightSpace fuel s <+: s := by
  induction fuel generalizing s with
  | zero => exact List.prefix_refl s
  | succ n ih =>
    rw [trimRightSpace_succ]
    split_ifs
    · exact (ih _).trans (List.take_prefix _ _)
    · exact List.prefix_refl s

theorem mem_of_mem_TrimSpace (s : GoString) (b : UInt8) (hb : b ∈ TrimSpace s) : b ∈ s := by
  unfold TrimSpace at hb
  exact (trimLeftSpace_suffix _ _).subset ((trimRightSpace_initial _ _).subset hb)

theorem trimLeftSpace_head (fuel : Nat) (s : GoString) (hlen : s.length ≤ fuel) :
    IsSpace (DecodeRuneInString (trimLeftSpace fuel s)).1 = false := by
  induction fuel generalizing s with
  | zero =>
    have : s = [] := List.length_eq_zero.mp (by omega)
    subst this
    exact IsSpace_RuneError
  | succ n ih =>
    rw [trimLeftSpace_succ]
    split_ifs with hsp
    · apply ih
      have hne : s ≠ [] := by
        rintro rfl
        rw [show DecodeRuneInString ([] : GoString) = (RuneError, 0) from rfl] at hsp
        simp [IsSpace_RuneError] at hsp
      have := Decode_size_pos s hne
      rw [List.length_drop]
      omega
    · simpa using hsp

theorem DecodeLast_size_pos (s : GoString)
    (hsp : IsSpace (DecodeLastRuneInString s).1 = true) :
    1 ≤ (DecodeLastRuneInString s).2 := by
  unfold DecodeLastRuneInString at hsp ⊢
  simp only at hsp ⊢
  split_ifs at hsp ⊢ with h0 h1 h2
  · simp [IsSpace_RuneError] at hsp
  · simp
  · simp
  · by_cases hx : List.drop (max 0 (findRuneStart s (max 0 (↑s.length - 4)) 3 (↑s.length - 2))).toNat s = []
    · rw [hx] at hsp
      simp [DecodeRuneInString, IsSpace_RuneError] at hsp
    · exact Decode_size_pos _ hx

theorem trimRightSpace_last (fuel : Nat) (s : GoString) (hlen : s.length ≤ fuel) :
    IsSpace (DecodeLastRuneInString (trimRightSpace fuel s)).1 = false := by
  induction fuel generalizing s with
  | zero =>
    have : s = [] := List.length_eq_zero.mp (by omega)
    subst this
    exact IsSpace_RuneError
  | succ n ih =>
    rw [trimRightSpace_succ]
    split_ifs with hsp
    · apply ih
      have := DecodeLast_size_pos s hsp
      rw [List.length_take]
      omega
    · simpa using hsp

theorem DecodeLast_append_ascii (t : GoString) (b : UInt8) (hb : b.toNat < 0x80) :
    DecodeLastRuneInString (t ++ [b]) = (b.toNat, 1) := by
  unfold DecodeLastRuneInString
  have hget : (t ++ [b]).getD ((t ++ [b]).length - 1) 0 = b := by
    simp [List.getD_eq_getElem?_getD]
  simp only [hget, hb, if_true]
  simp

theorem trimLeftSpace_append_ascii_space (b : UInt8) (hb : b.toNat < 0x80)
    (hsp : IsSpace b.toNat = true) (fuel : Nat) (s : GoString) (hlen : s.length ≤ fuel)
    (fuel1 : Nat) (hlen1 : s.length + 1 ≤ fuel1) :
    trimLeftSpace fuel1 (s ++ [b])
      = if trimLeftSpace fuel s = [] then [] else trimLeftSpace fuel s ++ [b] := by
  have hone : ∀ g : Nat, trimLeftSpace (g + 1) [b] = [] := by
    intro g
    have hd : DecodeRuneInString [b] = (b.toNat, 1) := by
      simp [DecodeRuneInString, hb]
    rw [trimLeftSpace_succ, hd]
    simp only [hsp, if_true, List.drop_one, List.tail_cons]
    cases g <;> rfl
  induction fuel generalizing s fuel1 with
  | zero =>
    have : s = [] := List.length_eq_zero.mp (by omega)
    subst this
    obtain ⟨g, rfl⟩ : ∃ g, fuel1 = g + 1 := ⟨fuel1 - 1, by simp at hlen1; omega⟩
    simpa [trimLeftSpace] using hone g
  | succ n ih =>
    obtain ⟨g, rfl⟩ : ∃ g, fuel1 = g + 1 := ⟨fuel1 - 1, by omega⟩
    by_cases hs : s = []
    · subst hs
      simpa [trimLeftSpace] using hone g
    · rw [trimLeftSpace_succ, trimLeftSpace_succ, Decode_append_ascii s b hs hb]
      by_cases hr : IsSpace (DecodeRuneInString s).1 = true
      · have hle := Decode_size_le s
        have hpos := Decode_size_pos s hs
        simp only [hr, if_true]
        rw [List.drop_append_of_le_length hle]
        apply ih
        · rw [List.length_drop]; omega
        · rw [List.length_drop]; omega
      · simp [hr, hs]

theorem TrimSpace_append_ascii_space (b : UInt8) (hb : b.toNat < 0x80)
    (hsp : IsSpace b.toNat = true) (s : GoString) :
    TrimSpace (s ++ [b]) = TrimSpace s := by
  unfold TrimSpace
  simp only
  rw [List.length_append, List.length_singleton,
    trimLeftSpace_append_ascii_space b hb hsp s.length s (le_refl _) (s.length + 1) (le_refl _)]
  by_cases ht : trimLeftSpace s.length s = []
  · simp [ht]
  · simp only [ht, if_false, List.length_append, List.length_singleton]
    rw [trimRightSpace_succ, DecodeLast_append_ascii _ b hb]
    simp [hsp]

theorem not_mem_of_mem_Split (c : GoString) (sep : UInt8) (l : GoString)
    (hl : l ∈ Split c sep) : sep ∉ l := by
  induction c generalizing l with
  | nil =>
    simp only [Split, List.mem_singleton] at hl
    subst hl
    simp
  | cons b rest ih =>
    rw [Split] at hl
    by_cases hb : b = sep
    · simp only [hb, if_true, List.mem_cons] at hl
      rcases hl with rfl | hl
      · simp
      · exact ih l hl
    · simp only [hb, if_false] at hl
      cases hsp : Split rest sep with
      | nil => exact absurd hsp (Split_ne_nil rest sep)
      | cons piece pieces =>
        rw [hsp] at hl
        simp only [List.mem_cons] at hl
        rcases hl with rfl | hl
        · have := ih piece (by rw [hsp]; exact List.mem_cons_self _ _)
          simp only [List.mem_cons, not_or]
          exact ⟨fun h => hb h.symm, this⟩
        · exact ih l (by rw [hsp]; exact List.mem_cons_of_mem _ hl)

theorem sameUpToCR_refl (ls : List GoString) : List.Forall₂ sameUpToCR ls ls := by
  induction ls with
  | nil => exact List.Forall₂.nil
  | cons l ls ih => exact List.Forall₂.cons (Or.inl rfl) ih

theorem Split_cons_sameUpToCR (b : UInt8) (x y : GoString)
    (h : List.Forall₂ sameUpToCR (Split x newline) (Split y newline)) :
    List.Forall₂ sameUpToCR (Split (b :: x) newline) (Split (b :: y) newline) := by
  rw [Split, Split]
  by_cases hb : b = newline
  · simp only [hb, if_true]
    exact List.Forall₂.cons (Or.inl rfl) h
  · simp only [hb, if_false]
    obtain ⟨p, ps, hp⟩ := List.exists_cons_of_ne_nil (Split_ne_nil x newline)
    obtain ⟨q, qs, hq⟩ := List.exists_cons_of_ne_nil (Split_ne_nil y newline)
    rw [hp, hq] at h
    rw [hp, hq]
    cases h with
    | cons hpq hrest =>
      refine List.Forall₂.cons ?_ hrest
      rcases hpq with rfl | rfl
      · exact Or.inl rfl
      · exact Or.inr rfl

theorem Split_replaceCRLF (c : GoString) :
    List.Forall₂ sameUpToCR (Split (replaceCRLF c) newline) (Split c newline) := by
  induction c using replaceCRLF.induct with
  | case1 => exact sameUpToCR_refl _
  | case2 b => exact sameUpToCR_refl _
  | case3 b b1 rest hcond ih =>
    obtain ⟨rfl, rfl⟩ := hcond
    have h1 : replaceCRLF (carriageReturn :: newline :: rest)
        = newline :: replaceCRLF rest := by
      rw [replaceCRLF]; simp
    have h2 : Split (newline :: replaceCRLF rest) newline
        = [] :: Split (replaceCRLF rest) newline := by
      rw [Split]; simp
    have h3 : Split (carriageReturn :: newline :: rest) newline
        = [carriageReturn] :: Split rest newline := by
      rw [Split, Split]
      simp [carriageReturn, newline]
    rw [h1, h2, h3]
    exact List.Forall₂.cons (Or.inr rfl) ih
  | case4 b b1 rest hcond ih =>
    have h1 : replaceCRLF (b :: b1 :: rest) = b :: replaceCRLF (b1 :: rest) := by
      rw [replaceCRLF]; simp [hcond]
    rw [h1]
    exact Split_cons_sameUpToCR b _ _ ih

theorem IsSpace_carriageReturn : IsSpace carriageReturn.toNat = true := by decide

theorem map_TrimSpace_sameUpToCR (ls ls1 : List GoString)
    (h : List.Forall₂ sameUpToCR ls ls1) : ls.map TrimSpace = ls1.map TrimSpace := by
  induction h with
  | nil => rfl
  | cons hpq _ ih =>
    simp only [List.map_cons, ih, List.cons.injEq, and_true]
    rcases hpq with rfl | rfl
    · rfl
    · exact (TrimSpace_append_ascii_space carriageReturn (by decide)
        IsSpace_carriageReturn _).symm

theorem mem_parseDictionary_map (c x : GoString) :
    x ∈ parseDictionary c ↔ x ≠ [] ∧ x ∈ (Split c newline).map TrimSpace := by
  rw [mem_parseDictionary, List.mem_map]
  constructor
  · rintro ⟨hne, line, hl, rfl⟩
    exact ⟨hne, line, hl, rfl⟩
  · rintro ⟨hne, line, hl, rfl⟩
    exact ⟨hne, line, hl, rfl⟩

theorem parseDictionary_replaceCRLF (c : GoString) :
    parseDictionary (replaceCRLF c) = parseDictionary c := by
  ext x
  rw [mem_parseDictionary_map, mem_parseDictionary_map,
    map_TrimSpace_sameUpToCR _ _ (Split_replaceCRLF c)]

theorem TrimSpace_clean (s : GoString) :
    hasLeadingSpace (TrimSpace s) = false ∧ hasTrailingSpace (TrimSpace s) = false := by
  unfold hasLeadingSpace hasTrailingSpace TrimSpace
  simp only
  refine ⟨?_, trimRightSpace_last _ _ (le_refl _)⟩
  obtain ⟨y, hy⟩ := trimRightSpace_initial (trimLeftSpace s.length s).length
    (trimLeftSpace s.length s)
  have hhead := trimLeftSpace_head s.length s (le_refl _)
  rcases Decode_append (trimRightSpace (trimLeftSpace s.length s).length
    (trimLeftSpace s.length s)) y with h | h
  · rw [hy] at h
    rw [← h]
    exact hhead
  · rw [h]
    exact IsSpace_RuneError

theorem getLast_ne_of_not_trailing (x : GoString) (b : UInt8) (hb : b.toNat < 0x80)
    (hsp : IsSpace b.toNat = true) (hx : hasTrailingSpace x = false) :
    x.getLast? ≠ some b := by
  intro hlast
  obtain ⟨y, rfl⟩ : ∃ y, x = y ++ [b] := by
    rcases List.eq_nil_or_concat x with rfl | ⟨y, a, rfl⟩
    · simp at hlast
    · simp at hlast
      exact ⟨y, by rw [hlast, List.concat_eq_append]⟩
  rw [hasTrailingSpace, DecodeLast_append_ascii y b hb, hsp] at hx
  exact Bool.noConfusion hx

theorem head_ne_of_not_leading (x : GoString) (b : UInt8) (hb : b.toNat < 0x80)
    (hsp : IsSpace b.toNat = true) (hx : hasLeadingSpace x = false) :
    x.head? ≠ some b := by
  intro hhead
  cases x with
  | nil => simp at hhead
  | cons a rest =>
    simp only [List.head?_cons, Option.some.injEq] at hhead
    subst hhead
    have hd : DecodeRuneInString (a :: rest) = (a.toNat, 1) := by
      simp [DecodeRuneInString, hb]
    rw [hasLeadingSpace, hd, hsp] at hx
    exact Bool.noConfusion hx

/-! ## The claims -/

/-- C1: `IsStopWord(w)` is true exactly when `w` is a key of the store's
current word set or `w` has byte length 0 or 1, and evaluating the
short-word test before the lookup gives the same result as the source's
order (lookup first). -/
theorem IsStopWord_iff_member_or_short (s : StopWords) (h : Heap) (w : GoString) :
    (s.IsStopWord w h = true ↔ (w ∈ s.words h ∨ w.length = 0 ∨ w.length = 1))
    ∧ s.IsStopWord w h = s.IsStopWord_shortFirst w h := by
  refine ⟨IsStopWord_eq_true s h w, ?_⟩
  unfold StopWords.IsStopWord StopWords.IsStopWord_shortFirst
  by_cases hm : w ∈ h.keys s.stopWordsMap <;>
    by_cases hl : w.length = 0 ∨ w.length = 1 <;> simp [hm, hl]

/-- C2: `RemoveStopWords` is the order-preserving filter of its input by
"the token text is not a stop word"; the empty input gives the empty
result; on a default-seeded store the texts the, cat, is, big give cat, big. -/
theorem RemoveStopWords_eq_filter :
    (∀ (s : StopWords) (h : Heap) (input : List Segment),
      s.RemoveStopWords input h
        = input.filter (fun seg => !s.IsStopWord seg.Token.Text h))
    ∧ (∀ (s : StopWords) (h : Heap), s.RemoveStopWords [] h = [])
    ∧ (∀ fs : FileSystem, ∃ s : StopWords,
        NewStopWords fs [] initHeap = ((some s, none), initHeap)
        ∧ s.RemoveStopWords [seg "the", seg "cat", seg "is", seg "big"] initHeap
            = [seg "cat", seg "big"]) := by
  refine ⟨?_, ?_, ?_⟩
  · intro s h input
    unfold StopWords.RemoveStopWords
    rw [foldl_append_filter (fun seg => !s.IsStopWord seg.Token.Text h)]
    simp
  · intro s h
    rfl
  · intro fs
    exact ⟨{ stopWordsMap := initHeap.DefaultStopWordsMap }, rfl, by decide⟩

/-- C3: when the file is readable with content `c`, `loadStopWordsDictionary`
returns a map and no error, and the map contains `x` exactly when `x` is
non-empty and is the `TrimSpace` of some line of `strings.Split(c, "\n")`.
The lines foo, bar, (empty), (three blanks), baz give exactly
the set of foo, bar, baz; a repeated line gives one member. -/
theorem loadStopWordsDictionary_members :
    (∀ (fs : FileSystem) (path c : GoString) (h : Heap), fs path = .ok c →
      ∃ (wm : Nat) (h1 : Heap),
        loadStopWordsDictionary fs path h = ((some wm, none), h1)
        ∧ ∀ x : GoString, x ∈ h1.keys (some wm)
            ↔ x ≠ [] ∧ ∃ line ∈ Split c newline, x = TrimSpace line)
    ∧ Split (lit "foo\nbar\n\n   \nbaz") newline
        = [lit "foo", lit "bar", lit "", lit "   ", lit "baz"]
    ∧ parseDictionary (lit "foo\nbar\n\n   \nbaz") = {lit "foo", lit "bar", lit "baz"}
    ∧ parseDictionary (lit "foo\nfoo\n foo ") = {lit "foo"} := by
  refine ⟨?_, by decide, by decide, by decide⟩
  intro fs path c h hread
  refine ⟨h.next, (h.alloc (parseDictionary c)).2,
    loadStopWordsDictionary_ok fs path c h hread, ?_⟩
  intro x
  rw [keys_alloc]
  exact mem_parseDictionary c x

/-- Witness of C3: a one-file file system holding the five lines. -/
theorem loadStopWordsDictionary_members_witness :
    ∃ (wm : Nat) (h1 : Heap),
      loadStopWordsDictionary (oneFile (lit "dict.txt") (lit "foo\nbar\n\n   \nbaz"))
          (lit "dict.txt") initHeap = ((some wm, none), h1)
      ∧ ∀ x : GoString, x ∈ h1.keys (some wm)
          ↔ x ≠ [] ∧ ∃ line ∈ Split (lit "foo\nbar\n\n   \nbaz") newline, x = TrimSpace line :=
  loadStopWordsDictionary_members.1
    (oneFile (lit "dict.txt") (lit "foo\nbar\n\n   \nbaz")) (lit "dict.txt")
    (lit "foo\nbar\n\n   \nbaz") initHeap (by simp [oneFile])

/-- C4: when the file is readable with content `c`, `LoadDictionary` returns
no error and the store's word set afterwards is the set parsed from `c`,
whatever the store held before; a word added earlier that is not in the
file is not in the set afterwards. With the five lines foo, bar, (empty),
(three blanks), baz after `Add("qux")` the set is exactly foo, bar, baz. -/
theorem LoadDictionary_replaces_word_set :
    (∀ (fs : FileSystem) (s : StopWords) (path c : GoString) (h : Heap), fs path = .ok c →
      ∃ (s1 : StopWords) (h1 : Heap),
        s.LoadDictionary fs path h = ((s1, none), h1)
        ∧ s1.words h1 = parseDictionary c
        ∧ ∀ (w : GoString) (h0 : Heap), s.Add w h0 = some h → w ∉ parseDictionary c →
            w ∉ s1.words h1)
    ∧ (∀ (fs : FileSystem) (s : StopWords) (path : GoString) (h0 h : Heap),
        s.Add (lit "qux") h0 = some h → fs path = .ok (lit "foo\nbar\n\n   \nbaz") →
        ∃ (s1 : StopWords) (h1 : Heap),
          s.LoadDictionary fs path h = ((s1, none), h1)
          ∧ s1.words h1 = {lit "foo", lit "bar", lit "baz"}
          ∧ s1.IsStopWord (lit "qux") h1 = false) := by
  constructor
  · intro fs s path c h hread
    refine ⟨_, _, LoadDictionary_ok fs s path c h hread, ?_, ?_⟩
    · exact keys_alloc h (parseDictionary c)
    · intro w h0 _ hw
      rw [StopWords.words, keys_alloc]
      exact hw
  · intro fs s path h0 h _ hread
    refine ⟨_, _, LoadDictionary_ok fs s path _ h hread, ?_, ?_⟩
    · rw [StopWords.words, keys_alloc]
      decide
    · have hw : ({ stopWordsMap := some h.next } : StopWords).words
          (h.alloc (parseDictionary (lit "foo\nbar\n\n   \nbaz"))).2
          = parseDictionary (lit "foo\nbar\n\n   \nbaz") := keys_alloc h _
      rw [Bool.eq_false_iff, Ne, IsStopWord_eq_true, hw]
      decide

/-- Witness of C4: the default store after `Add("qux")` reloads the five lines. -/
theorem LoadDictionary_replaces_word_set_witness :
    ∃ (s1 : StopWords) (h1 : Heap),
      StopWords.LoadDictionary (oneFile (lit "dict.txt") (lit "foo\nbar\n\n   \nbaz"))
          { stopWordsMap := initHeap.DefaultStopWordsMap } (lit "dict.txt")
          (initHeap.store 0 (lit "qux")) = ((s1, none), h1)
      ∧ s1.words h1 = {lit "foo", lit "bar", lit "baz"}
      ∧ s1.IsStopWord (lit "qux") h1 = false :=
  LoadDictionary_replaces_word_set.2
    (oneFile (lit "dict.txt") (lit "foo\nbar\n\n   \nbaz"))
    { stopWordsMap := initHeap.DefaultStopWordsMap } (lit "dict.txt") initHeap
    (initHeap.store 0 (lit "qux")) rfl (by simp [oneFile])

/-- C5: when the file read fails with error `e`, `LoadDictionary` returns `e`
and leaves the store and the heap as they were: the word set is the same
and `IsStopWord` answers the same for every word. -/
theorem LoadDictionary_failure_leaves_store (fs : FileSystem) (s : StopWords)
    (path : GoString) (e : GoError) (h : Heap) (hread : fs path = .error e) :
    ∃ (s1 : StopWords) (h1 : Heap),
      s.LoadDictionary fs path h = ((s1, some e), h1)
      ∧ s1 = s ∧ h1 = h
      ∧ s1.words h1 = s.words h
      ∧ ∀ w : GoString, s1.IsStopWord w h1 = s.IsStopWord w h :=
  ⟨s, h, LoadDictionary_error fs s path e h hread, rfl, rfl, rfl, fun _ => rfl⟩

/-- Witness of C5: no file is readable; the default store is reloaded. -/
theorem LoadDictionary_failure_leaves_store_witness :
    ∃ (s1 : StopWords) (h1 : Heap),
      StopWords.LoadDictionary (fun _ => .error (GoError.readFile 2))
          { stopWordsMap := initHeap.DefaultStopWordsMap } (lit "missing.txt") initHeap
        = ((s1, some (GoError.readFile 2)), h1)
      ∧ s1 = { stopWordsMap := initHeap.DefaultStopWordsMap } ∧ h1 = initHeap
      ∧ s1.words h1 = StopWords.words { stopWordsMap := initHeap.DefaultStopWordsMap } initHeap
      ∧ ∀ w : GoString, s1.IsStopWord w h1
          = StopWords.IsStopWord { stopWordsMap := initHeap.DefaultStopWordsMap } w initHeap :=
  LoadDictionary_failure_leaves_store (fun _ => .error (GoError.readFile 2))
    { stopWordsMap := initHeap.DefaultStopWordsMap } (lit "missing.txt") (GoError.readFile 2)
    initHeap rfl

/-- C6 (what the code does): two default-seeded stores `A` and `B` hold the
same map reference as `DefaultStopWordsMap`; after `A.Add("cat")` the word is
a stop word for `B`, is a key of the builtin map, and is a stop word for a
default-seeded store created afterwards. -/
theorem default_stores_share_builtin_map (fs : FileSystem) :
    ∃ (A B C : StopWords) (h1 : Heap),
      NewStopWords fs [] initHeap = ((some A, none), initHeap)
      ∧ NewStopWords fs [] initHeap = ((some B, none), initHeap)
      ∧ B.IsStopWord (lit "cat") initHeap = false
      ∧ lit "cat" ∉ initHeap.keys initHeap.DefaultStopWordsMap
      ∧ A.Add (lit "cat") initHeap = some h1
      ∧ B.IsStopWord (lit "cat") h1 = true
      ∧ lit "cat" ∈ h1.keys h1.DefaultStopWordsMap
      ∧ NewStopWords fs [] h1 = ((some C, none), h1)
      ∧ C.IsStopWord (lit "cat") h1 = true := by
  refine ⟨{ stopWordsMap := initHeap.DefaultStopWordsMap }, { stopWordsMap := initHeap.DefaultStopWordsMap },
    { stopWordsMap := initHeap.DefaultStopWordsMap }, initHeap.store 0 (lit "cat"),
    rfl, rfl, by decide, by decide, rfl, by decide, by decide, rfl, by decide⟩

/-- C7: for a store that `NewStopWords` constructed without error, whenever
`Add(w)` completes, `IsStopWord(w)` is true afterwards, in particular for a
word of two or more bytes that was not a stop word before. `Add(w)` does
complete when the store was seeded from a file, or from the package variable
`DefaultStopWordsMap` while that variable was not nil. -/
theorem IsStopWord_after_Add (fs : FileSystem) (paths : List GoString) (h0 h : Heap)
    (s : StopWords) (hnew : NewStopWords fs paths h0 = ((some s, none), h))
    (w : GoString) (h' : Heap) :
    (∀ h1 : Heap, s.Add w h' = some h1 → s.IsStopWord w h1 = true)
    ∧ ((paths = [] → h0.DefaultStopWordsMap ≠ none) →
        ∃ h1 : Heap, s.Add w h' = some h1 ∧ s.IsStopWord w h1 = true) := by
  have hafter : ∀ h1 : Heap, s.Add w h' = some h1 → s.IsStopWord w h1 = true := by
    intro h1 hadd
    rw [IsStopWord_eq_true, words_after_Add s w h' h1 hadd]
    exact Or.inl (Finset.mem_insert_self _ _)
  refine ⟨hafter, fun hvar => ?_⟩
  obtain ⟨a, hs⟩ := NewStopWords_ok_map_ne_nil fs paths h0 h s hnew hvar
  have hadd : s.Add w h' = some (h'.store a w) := by simp [StopWords.Add, hs]
  exact ⟨_, hadd, hafter _ hadd⟩

/-- Witness of C7: the default store made right after package initialisation,
the word cat (three bytes, not a stop word before). -/
theorem IsStopWord_after_Add_witness :
    StopWords.IsStopWord { stopWordsMap := initHeap.DefaultStopWordsMap } (lit "cat")
        initHeap = false
    ∧ (∀ h1 : Heap,
        StopWords.Add { stopWordsMap := initHeap.DefaultStopWordsMap } (lit "cat") initHeap
            = some h1 →
        StopWords.IsStopWord { stopWordsMap := initHeap.DefaultStopWordsMap } (lit "cat") h1
            = true)
    ∧ ∃ h1 : Heap,
        StopWords.Add { stopWordsMap := initHeap.DefaultStopWordsMap } (lit "cat") initHeap
            = some h1
        ∧ StopWords.IsStopWord { stopWordsMap := initHeap.DefaultStopWordsMap } (lit "cat") h1
            = true :=
  ⟨by decide,
    (IsStopWord_after_Add (fun _ => .error (GoError.readFile 2)) [] initHeap initHeap
      { stopWordsMap := initHeap.DefaultStopWordsMap } rfl (lit "cat") initHeap).1,
    (IsStopWord_after_Add (fun _ => .error (GoError.readFile 2)) [] initHeap initHeap
      { stopWordsMap := initHeap.DefaultStopWordsMap } rfl (lit "cat") initHeap).2
      (fun _ => by decide)⟩

/-- C8: `Add(w)` adds exactly the key `w`: the word set afterwards is the set
before with `w` inserted, and for every `v` different from `w` as a byte
sequence `IsStopWord(v)` is the same before and after. -/
theorem Add_frame (s : StopWords) (w v : GoString) (h h1 : Heap)
    (hadd : s.Add w h = some h1) (hv : v ≠ w) :
    s.words h1 = insert w (s.words h) ∧ s.IsStopWord v h1 = s.IsStopWord v h := by
  have hw := words_after_Add s w h h1 hadd
  refine ⟨hw, ?_⟩
  rw [Bool.eq_iff_iff, IsStopWord_eq_true, IsStopWord_eq_true, hw, Finset.mem_insert]
  simp [hv]

/-- Witness of C8: adding "The " (capital, trailing blank) to the default
store leaves the answer for "the" unchanged. -/
theorem Add_frame_witness :
    StopWords.words { stopWordsMap := initHeap.DefaultStopWordsMap } (initHeap.store 0 (lit "The "))
        = insert (lit "The ")
            (StopWords.words { stopWordsMap := initHeap.DefaultStopWordsMap } initHeap)
    ∧ StopWords.IsStopWord { stopWordsMap := initHeap.DefaultStopWordsMap } (lit "the")
          (initHeap.store 0 (lit "The "))
        = StopWords.IsStopWord { stopWordsMap := initHeap.DefaultStopWordsMap } (lit "the") initHeap :=
  Add_frame { stopWordsMap := initHeap.DefaultStopWordsMap } (lit "The ") (lit "the") initHeap
    (initHeap.store 0 (lit "The ")) rfl (by decide)

/-- C9 (counterexample): called with two paths, `NewStopWords` hands back a
non-nil pointer to a `StopWords` (whose map is nil) together with the error. -/
theorem NewStopWords_two_paths_returns_store :
    (NewStopWords (fun _ => .error (GoError.readFile 2)) [lit "a.txt", lit "b.txt"]
        initHeap).1.1 = some { stopWordsMap := none }
    ∧ ¬ (NewStopWords (fun _ => .error (GoError.readFile 2)) [lit "a.txt", lit "b.txt"]
        initHeap).1.1 = none := by
  constructor
  · rfl
  · simp [NewStopWords]

/-- C9 (amended): called with two or more paths, `NewStopWords` returns the
"only one dictionary" error, whatever the paths and the files are, allocates
no map and leaves the heap as it was; the pointer returned with the error is
non-nil and its `stopWordsMap` is nil. -/
theorem NewStopWords_many_paths (fs : FileSystem) (paths : List GoString) (h : Heap)
    (hlen : 2 ≤ paths.length) :
    NewStopWords fs paths h
      = ((some { stopWordsMap := none },
          some (GoError.errorsNew "Only one stop words dictionary could be loaded.")), h)
    ∧ ∀ fs1 : FileSystem, NewStopWords fs1 paths h = NewStopWords fs paths h := by
  match paths, hlen with
  | _ :: _ :: _, _ => exact ⟨rfl, fun _ => rfl⟩

/-- Witness of C9 (amended): two paths, both of them readable files. -/
theorem NewStopWords_many_paths_witness :
    NewStopWords (fun _ => .ok (lit "foo")) [lit "a.txt", lit "b.txt"] initHeap
      = ((some { stopWordsMap := none },
          some (GoError.errorsNew "Only one stop words dictionary could be loaded.")),
          initHeap)
    ∧ ∀ fs1 : FileSystem,
        NewStopWords fs1 [lit "a.txt", lit "b.txt"] initHeap
          = NewStopWords (fun _ => .ok (lit "foo")) [lit "a.txt", lit "b.txt"] initHeap :=
  NewStopWords_many_paths (fun _ => .ok (lit "foo")) [lit "a.txt", lit "b.txt"] initHeap
    (by decide)

/-- C10: for a path whose file is readable with content `c`, `NewStopWords(path)`
returns no error and a store whose word set is the set parsed from `c`; a
builtin default word is in it only if some line of the file trims to it, so
`IsStopWord("the")` is false when no line trims to "the". -/
theorem NewStopWords_from_file (fs : FileSystem) (path c : GoString) (h : Heap)
    (hread : fs path = .ok c) :
    ∃ (s : StopWords) (h1 : Heap),
      NewStopWords fs [path] h = ((some s, none), h1)
      ∧ s.words h1 = parseDictionary c
      ∧ (∀ w ∈ defaultWords, w ∈ s.words h1 ↔ ∃ line ∈ Split c newline, w = TrimSpace line)
      ∧ ((∀ line ∈ Split c newline, TrimSpace line ≠ lit "the") →
          s.IsStopWord (lit "the") h1 = false) := by
  have hw : ({ stopWordsMap := some h.next } : StopWords).words
      (h.alloc (parseDictionary c)).2 = parseDictionary c := keys_alloc h _
  refine ⟨_, _, NewStopWords_file_ok fs path c h hread, hw, ?_, ?_⟩
  · intro w hmem
    rw [hw, mem_parseDictionary]
    constructor
    · exact fun hx => hx.2
    · intro hx
      refine ⟨?_, hx⟩
      rintro rfl
      revert hmem
      decide
  · intro hno
    rw [Bool.eq_false_iff, Ne, IsStopWord_eq_true, hw, mem_parseDictionary]
    rintro (⟨_, line, hline, heq⟩ | hlen | hlen)
    · exact hno line hline heq.symm
    · revert hlen; decide
    · revert hlen; decide

/-- Witness of C10: a file with the lines foo and bar. -/
theorem NewStopWords_from_file_witness :
    ∃ (s : StopWords) (h1 : Heap),
      NewStopWords (oneFile (lit "dict.txt") (lit "foo\nbar")) [lit "dict.txt"] initHeap
        = ((some s, none), h1)
      ∧ s.words h1 = parseDictionary (lit "foo\nbar")
      ∧ (∀ w ∈ defaultWords,
          w ∈ s.words h1 ↔ ∃ line ∈ Split (lit "foo\nbar") newline, w = TrimSpace line)
      ∧ ((∀ line ∈ Split (lit "foo\nbar") newline, TrimSpace line ≠ lit "the") →
          s.IsStopWord (lit "the") h1 = false) :=
  NewStopWords_from_file (oneFile (lit "dict.txt") (lit "foo\nbar")) (lit "dict.txt")
    (lit "foo\nbar") initHeap (by simp [oneFile])

/-- C11 (counterexample): called with one path whose file cannot be read,
`NewStopWords` hands back a non-nil pointer to a `StopWords` (whose map is
nil) together with the read error. -/
theorem NewStopWords_unreadable_returns_store :
    (NewStopWords (fun _ => .error (GoError.readFile 2)) [lit "missing.txt"]
        initHeap).1.1 = some { stopWordsMap := none }
    ∧ ¬ (NewStopWords (fun _ => .error (GoError.readFile 2)) [lit "missing.txt"]
        initHeap).1.1 = none := by
  constructor
  · rfl
  · simp [NewStopWords, loadStopWordsDictionary]

/-- C11 (amended): called with one path whose file cannot be read,
`NewStopWords` returns the read error unchanged, allocates no map and leaves
the heap as it was; the pointer returned with the error is non-nil and its
`stopWordsMap` is nil. -/
theorem NewStopWords_unreadable (fs : FileSystem) (path : GoString) (e : GoError)
    (h : Heap) (hread : fs path = .error e) :
    NewStopWords fs [path] h = ((some { stopWordsMap := none }, some e), h) :=
  NewStopWords_file_error fs path e h hread

/-- Witness of C11 (amended): no file is readable. -/
theorem NewStopWords_unreadable_witness :
    NewStopWords (fun _ => .error (GoError.readFile 2)) [lit "missing.txt"] initHeap
      = ((some { stopWordsMap := none }, some (GoError.readFile 2)), initHeap) :=
  NewStopWords_unreadable (fun _ => .error (GoError.readFile 2)) (lit "missing.txt")
    (GoError.readFile 2) initHeap rfl

/-- C12: `NewStopWords` with no path returns a nil error on every heap; the
builtin list has 31 distinct words; and on the heap reached from package
initialisation by any sequence of map writes and allocations, the store it
returns answers `IsStopWord(w) = true` for each of the 31 builtin words. -/
theorem NewStopWords_default_has_builtin_words :
    defaultWords.length = 31 ∧ defaultWords.Nodup
    ∧ (∀ (fs : FileSystem) (h : Heap), ∃ s : StopWords,
        NewStopWords fs [] h = ((some s, none), h))
    ∧ (∀ (fs : FileSystem) (es : List HeapEvent), ∃ s : StopWords,
        NewStopWords fs [] (initHeap.events es) = ((some s, none), initHeap.events es)
        ∧ ∀ w ∈ defaultWords, s.IsStopWord w (initHeap.events es) = true) := by
  refine ⟨by decide, by decide, fun fs h => ⟨_, rfl⟩, fun fs es => ⟨_, rfl, ?_⟩⟩
  intro w hw
  rw [IsStopWord_eq_true, StopWords.words, (builtin_intact_events es).2.1]
  exact Or.inl ((builtin_intact_events es).2.2 w hw)

/-- C13: the short-word rule counts bytes. For a word of two or more bytes
`IsStopWord` is true exactly when the word is in the word set; a word of 0 or
1 bytes is always a stop word. The one-character words "中" (3 bytes) and
"é" (2 bytes) are not stop words for a store whose set lacks them. -/
theorem IsStopWord_counts_bytes :
    (∀ (s : StopWords) (h : Heap) (w : GoString), 2 ≤ w.length →
      (s.IsStopWord w h = true ↔ w ∈ s.words h))
    ∧ (∀ (s : StopWords) (h : Heap) (w : GoString), w.length ≤ 1 →
      s.IsStopWord w h = true)
    ∧ (lit "中").length = 3 ∧ (lit "é").length = 2
    ∧ StopWords.IsStopWord { stopWordsMap := initHeap.DefaultStopWordsMap } (lit "中") initHeap = false
    ∧ StopWords.IsStopWord { stopWordsMap := initHeap.DefaultStopWordsMap } (lit "é") initHeap = false
    ∧ StopWords.IsStopWord { stopWordsMap := none } (lit "a") initHeap = true := by
  refine ⟨?_, ?_, by decide, by decide, by decide, by decide, by decide⟩
  · intro s h w hlen
    rw [IsStopWord_eq_true]
    constructor
    · rintro (hm | h0 | h1)
      · exact hm
      · omega
      · omega
    · exact Or.inl
  · intro s h w hlen
    rw [IsStopWord_eq_true]
    omega

/-- Witness of C13: the three-byte word "中" on the default store. -/
theorem IsStopWord_counts_bytes_witness :
    (StopWords.IsStopWord { stopWordsMap := initHeap.DefaultStopWordsMap } (lit "中") initHeap = true
      ↔ lit "中" ∈ StopWords.words { stopWordsMap := initHeap.DefaultStopWordsMap } initHeap)
    ∧ StopWords.IsStopWord { stopWordsMap := initHeap.DefaultStopWordsMap } (lit "") initHeap = true :=
  ⟨IsStopWord_counts_bytes.1 { stopWordsMap := initHeap.DefaultStopWordsMap } initHeap (lit "中")
      (by decide),
    IsStopWord_counts_bytes.2.1 { stopWordsMap := initHeap.DefaultStopWordsMap } initHeap (lit "")
      (by decide)⟩

/-- C14: on a default-seeded store, while the builtin map holds just the 31
builtin words, `IsStopWord(w)` is false for every word of two or more bytes
that is not one of the 31 words byte for byte: "The", "THE", " the" and
"the " are not stop words, "the" is. -/
theorem default_store_lookup_exact (fs : FileSystem) (h h1 : Heap) (s : StopWords)
    (hnew : NewStopWords fs [] h = ((some s, none), h1))
    (hdef : h.keys h.DefaultStopWordsMap = defaultWords.toFinset) :
    (∀ w : GoString, 2 ≤ w.length → w ∉ defaultWords → s.IsStopWord w h1 = false)
    ∧ s.IsStopWord (lit "The") h1 = false ∧ s.IsStopWord (lit "THE") h1 = false
    ∧ s.IsStopWord (lit " the") h1 = false ∧ s.IsStopWord (lit "the ") h1 = false
    ∧ s.IsStopWord (lit "the") h1 = true := by
  simp only [NewStopWords, Prod.mk.injEq, Option.some.injEq, and_true] at hnew
  obtain ⟨hs, hh⟩ := hnew
  subst hs hh
  have hw : ∀ w : GoString,
      StopWords.IsStopWord { stopWordsMap := h.DefaultStopWordsMap } w h = true
        ↔ (w ∈ defaultWords ∨ w.length = 0 ∨ w.length = 1) := by
    intro w
    rw [IsStopWord_eq_true, StopWords.words, hdef, List.mem_toFinset]
  have hfalse : ∀ w : GoString, 2 ≤ w.length → w ∉ defaultWords →
      StopWords.IsStopWord { stopWordsMap := h.DefaultStopWordsMap } w h = false := by
    intro w hlen hnot
    rw [Bool.eq_false_iff, Ne, hw]
    rintro (hm | h0 | h1)
    · exact hnot hm
    · omega
    · omega
  refine ⟨hfalse, hfalse _ (by decide) (by decide), hfalse _ (by decide) (by decide),
    hfalse _ (by decide) (by decide), hfalse _ (by decide) (by decide), ?_⟩
  rw [hw]
  exact Or.inl (by decide)

/-- Witness of C14: the store made first after package initialisation. -/
theorem default_store_lookup_exact_witness :
    (∀ w : GoString, 2 ≤ w.length → w ∉ defaultWords →
      StopWords.IsStopWord { stopWordsMap := initHeap.DefaultStopWordsMap } w initHeap = false)
    ∧ StopWords.IsStopWord { stopWordsMap := initHeap.DefaultStopWordsMap } (lit "The") initHeap = false
    ∧ StopWords.IsStopWord { stopWordsMap := initHeap.DefaultStopWordsMap } (lit "THE") initHeap = false
    ∧ StopWords.IsStopWord { stopWordsMap := initHeap.DefaultStopWordsMap } (lit " the") initHeap = false
    ∧ StopWords.IsStopWord { stopWordsMap := initHeap.DefaultStopWordsMap } (lit "the ") initHeap = false
    ∧ StopWords.IsStopWord { stopWordsMap := initHeap.DefaultStopWordsMap } (lit "the") initHeap = true :=
  default_store_lookup_exact (fun _ => .error (GoError.readFile 2)) initHeap initHeap
    { stopWordsMap := initHeap.DefaultStopWordsMap } rfl rfl

/-- C15: `Add(w)` on a store whose set already holds `w` leaves the heap, and
so the word set, as it was; a second `Add(w)` right after the first completes
and leaves the heap and the word set as the first one left them. -/
theorem Add_idempotent (s : StopWords) (w : GoString) (h h1 : Heap)
    (hadd : s.Add w h = some h1) :
    (w ∈ s.words h → h1 = h ∧ s.words h1 = s.words h)
    ∧ ∃ h2 : Heap, s.Add w h1 = some h2 ∧ h2 = h1 ∧ s.words h2 = s.words h1 := by
  obtain ⟨a, hs, rfl⟩ := Add_some s w h h1 hadd
  have hwords : ∀ g : Heap, s.words g = g.maps a := by
    intro g; simp [StopWords.words, Heap.keys, hs]
  constructor
  · intro hw
    rw [hwords] at hw
    have := store_eq_self h a w hw
    exact ⟨this, by rw [this]⟩
  · have hmem : w ∈ (h.store a w).maps a := by simp [Heap.store]
    have h2 := store_eq_self (h.store a w) a w hmem
    refine ⟨(h.store a w).store a w, by simp [StopWords.Add, hs], h2, by rw [h2]⟩

/-- Witness of C15: adding "the", already a builtin word, to the default store. -/
theorem Add_idempotent_witness :
    (lit "the" ∈ StopWords.words { stopWordsMap := initHeap.DefaultStopWordsMap } initHeap →
      initHeap.store 0 (lit "the") = initHeap
      ∧ StopWords.words { stopWordsMap := initHeap.DefaultStopWordsMap } (initHeap.store 0 (lit "the"))
          = StopWords.words { stopWordsMap := initHeap.DefaultStopWordsMap } initHeap)
    ∧ ∃ h2 : Heap,
        StopWords.Add { stopWordsMap := initHeap.DefaultStopWordsMap } (lit "the")
            (initHeap.store 0 (lit "the")) = some h2
        ∧ h2 = initHeap.store 0 (lit "the")
        ∧ StopWords.words { stopWordsMap := initHeap.DefaultStopWordsMap } h2
            = StopWords.words { stopWordsMap := initHeap.DefaultStopWordsMap }
                (initHeap.store 0 (lit "the")) :=
  Add_idempotent { stopWordsMap := initHeap.DefaultStopWordsMap } (lit "the") initHeap
    (initHeap.store 0 (lit "the")) rfl

/-- C16 (counterexample): the store `NewStopWords` hands back together with
an error (two paths, or one unreadable path) has a nil map, and `Add` on it
panics; so does `Add` on the store `NewStopWords()` returns with a nil error
while the package variable `DefaultStopWordsMap` is nil. -/
theorem Add_panics_on_store_of_failed_construction :
    (∃ s : StopWords,
      (NewStopWords (fun _ => .ok (lit "foo")) [lit "a.txt", lit "b.txt"] initHeap).1.1
        = some s
      ∧ s.Add (lit "cat") initHeap = none)
    ∧ (∃ s : StopWords,
      (NewStopWords (fun _ => .error (GoError.readFile 2)) [lit "missing.txt"] initHeap).1.1
        = some s
      ∧ s.Add (lit "cat") initHeap = none)
    ∧ (∃ s : StopWords,
      NewStopWords (fun _ => .ok (lit "foo")) [] { initHeap with DefaultStopWordsMap := none }
        = ((some s, none), { initHeap with DefaultStopWordsMap := none })
      ∧ s.Add (lit "cat") { initHeap with DefaultStopWordsMap := none } = none) :=
  ⟨⟨{ stopWordsMap := none }, rfl, rfl⟩, ⟨{ stopWordsMap := none }, rfl, rfl⟩,
    ⟨{ stopWordsMap := none }, rfl, rfl⟩⟩

/-- C16 (amended): for a store that `NewStopWords` returns with a nil error,
seeded from a file or from the package variable `DefaultStopWordsMap` while
that variable is not nil, every sequence of `Add` and `LoadDictionary` calls
on it (the loads succeeding or failing) runs without a panic, the store's map
is non-nil afterwards, and `Add(word)` then completes for every word. -/
theorem Add_never_panics_after_successful_construction (fs : FileSystem)
    (paths : List GoString) (h0 h : Heap) (s : StopWords)
    (hnew : NewStopWords fs paths h0 = ((some s, none), h))
    (hvar : paths = [] → h0.DefaultStopWordsMap ≠ none) (cs : List Call) :
    ∃ (s1 : StopWords) (h1 : Heap),
      s.calls h cs = some (s1, h1)
      ∧ s1.stopWordsMap ≠ none
      ∧ ∀ word : GoString, ∃ h2 : Heap, s1.Add word h1 = some h2 := by
  obtain ⟨s1, h1, hrun, a, ha⟩ :=
    calls_keep_map s h cs (NewStopWords_ok_map_ne_nil fs paths h0 h s hnew hvar)
  refine ⟨s1, h1, hrun, by simp [ha], fun word => ⟨h1.store a word, ?_⟩⟩
  simp [StopWords.Add, ha]

/-- Witness of C16 (amended): the default store after an `Add`, a failing
`LoadDictionary`, a succeeding `LoadDictionary` and another `Add`. -/
theorem Add_never_panics_after_successful_construction_witness :
    ∃ (s1 : StopWords) (h1 : Heap),
      StopWords.calls { stopWordsMap := initHeap.DefaultStopWordsMap } initHeap
        [Call.Add (lit "cat"),
         Call.LoadDictionary (fun _ => .error (GoError.readFile 2)) (lit "missing.txt"),
         Call.LoadDictionary (oneFile (lit "dict.txt") (lit "foo\nbar")) (lit "dict.txt"),
         Call.Add (lit "dog")] = some (s1, h1)
      ∧ s1.stopWordsMap ≠ none
      ∧ ∀ word : GoString, ∃ h2 : Heap, s1.Add word h1 = some h2 :=
  Add_never_panics_after_successful_construction (fun _ => .error (GoError.readFile 2)) []
    initHeap initHeap { stopWordsMap := initHeap.DefaultStopWordsMap } rfl
    (fun _ => by decide) _

/-- C18: after `Add(w)` the output of `RemoveStopWords` is the earlier output
without the segments whose token text is `w`, hence a sublist of the earlier
output in the same order. -/
theorem RemoveStopWords_after_Add (s : StopWords) (w : GoString) (h h1 : Heap)
    (input : List Segment) (hadd : s.Add w h = some h1) :
    s.RemoveStopWords input h1
      = (s.RemoveStopWords input h).filter (fun seg => decide (seg.Token.Text ≠ w))
    ∧ (s.RemoveStopWords input h1).Sublist (s.RemoveStopWords input h) := by
  have heq : s.RemoveStopWords input h1
      = (s.RemoveStopWords input h).filter (fun seg => decide (seg.Token.Text ≠ w)) := by
    rw [RemoveStopWords_filter, RemoveStopWords_filter, List.filter_filter]
    apply List.filter_congr
    intro x _
    by_cases hx : x.Token.Text = w
    · simp [hx, IsStopWord_Add_self s w h h1 hadd]
    · simp [hx, IsStopWord_Add_of_ne s w x.Token.Text h h1 hadd hx]
  refine ⟨heq, ?_⟩
  rw [heq]
  exact List.filter_sublist _

/-- Witness of C18: adding "cat" to the default store removes the cat
segment from the filtered output and keeps "big". -/
theorem RemoveStopWords_after_Add_witness :
    StopWords.RemoveStopWords { stopWordsMap := initHeap.DefaultStopWordsMap }
        [seg "the", seg "cat", seg "is", seg "big"] (initHeap.store 0 (lit "cat"))
      = (StopWords.RemoveStopWords { stopWordsMap := initHeap.DefaultStopWordsMap }
          [seg "the", seg "cat", seg "is", seg "big"] initHeap).filter
          (fun seg => decide (seg.Token.Text ≠ lit "cat"))
    ∧ (StopWords.RemoveStopWords { stopWordsMap := initHeap.DefaultStopWordsMap }
        [seg "the", seg "cat", seg "is", seg "big"] (initHeap.store 0 (lit "cat"))).Sublist
      (StopWords.RemoveStopWords { stopWordsMap := initHeap.DefaultStopWordsMap }
        [seg "the", seg "cat", seg "is", seg "big"] initHeap) :=
  RemoveStopWords_after_Add { stopWordsMap := initHeap.DefaultStopWordsMap } (lit "cat") initHeap
    (initHeap.store 0 (lit "cat")) [seg "the", seg "cat", seg "is", seg "big"] rfl

/-- C19: the set parsed from `a`, a newline, then `b` is the union of the sets
parsed from `a` and from `b`; so it is the same with `a` and `b` swapped,
parsing `a` twice gives the set of `a`, and two contents with the same
lines, in whatever order and however often repeated, give the same set. -/
theorem parseDictionary_append :
    (∀ a b : GoString,
      parseDictionary (a ++ newline :: b) = parseDictionary a ∪ parseDictionary b
      ∧ parseDictionary (a ++ newline :: b) = parseDictionary (b ++ newline :: a)
      ∧ parseDictionary (a ++ newline :: a) = parseDictionary a)
    ∧ (∀ c d : GoString,
        (∀ l : GoString, l ∈ Split c newline ↔ l ∈ Split d newline) →
        parseDictionary c = parseDictionary d) := by
  have hunion : ∀ a b : GoString,
      parseDictionary (a ++ newline :: b) = parseDictionary a ∪ parseDictionary b := by
    intro a b
    ext x
    simp only [Finset.mem_union, mem_parseDictionary, Split_append, List.mem_append]
    constructor
    · rintro ⟨hne, line, hl | hl, rfl⟩
      · exact Or.inl ⟨hne, line, hl, rfl⟩
      · exact Or.inr ⟨hne, line, hl, rfl⟩
    · rintro (⟨hne, line, hl, rfl⟩ | ⟨hne, line, hl, rfl⟩)
      · exact ⟨hne, line, Or.inl hl, rfl⟩
      · exact ⟨hne, line, Or.inr hl, rfl⟩
  refine ⟨fun a b => ⟨hunion a b, ?_, ?_⟩, parseDictionary_congr⟩
  · rw [hunion, hunion, Finset.union_comm]
  · rw [hunion, Finset.union_self]

/-- Witness of C19: the lines foo, bar, foo against the lines bar, foo. -/
theorem parseDictionary_append_witness :
    parseDictionary (lit "foo\nbar\nfoo") = parseDictionary (lit "bar\nfoo") :=
  parseDictionary_append.2 (lit "foo\nbar\nfoo") (lit "bar\nfoo") (fun l => by
    rw [show Split (lit "foo\nbar\nfoo") newline = [lit "foo", lit "bar", lit "foo"] from by
        decide,
      show Split (lit "bar\nfoo") newline = [lit "bar", lit "foo"] from by decide]
    simp only [List.mem_cons, List.mem_singleton, List.not_mem_nil, or_false]
    tauto)

/-- C20: every member of the set parsed from a file content is non-empty,
contains no newline byte, and neither begins nor ends with a white-space
rune (so its first and last byte are not an ASCII blank, tab or carriage
return); and the content with every "\r\n" replaced by "\n" parses to the
same set. The CRLF file with the lines foo and bar gives the set of foo, bar. -/
theorem parsed_words_clean :
    (∀ c x : GoString, x ∈ parseDictionary c →
      x ≠ [] ∧ newline ∉ x
      ∧ hasLeadingSpace x = false ∧ hasTrailingSpace x = false
      ∧ ∀ b : UInt8, b.toNat < 0x80 → IsSpace b.toNat = true →
          x.head? ≠ some b ∧ x.getLast? ≠ some b)
    ∧ (∀ c : GoString, parseDictionary (replaceCRLF c) = parseDictionary c)
    ∧ replaceCRLF (lit "foo\r\nbar\r\n") = lit "foo\nbar\n"
    ∧ parseDictionary (lit "foo\r\nbar\r\n") = {lit "foo", lit "bar"} := by
  refine ⟨?_, parseDictionary_replaceCRLF, by decide, by decide⟩
  intro c x hx
  rw [mem_parseDictionary] at hx
  obtain ⟨hne, line, hline, rfl⟩ := hx
  have hclean := TrimSpace_clean line
  refine ⟨hne, ?_, hclean.1, hclean.2, ?_⟩
  · intro hmem
    exact not_mem_of_mem_Split c newline line hline (mem_of_mem_TrimSpace line newline hmem)
  · intro b hb hsp
    exact ⟨head_ne_of_not_leading _ b hb hsp hclean.1,
      getLast_ne_of_not_trailing _ b hb hsp hclean.2⟩

/-- Witness of C20: the word foo of the CRLF file with the lines foo and bar. -/
theorem parsed_words_clean_witness :
    lit "foo" ≠ [] ∧ newline ∉ lit "foo"
    ∧ hasLeadingSpace (lit "foo") = false ∧ hasTrailingSpace (lit "foo") = false
    ∧ ∀ b : UInt8, b.toNat < 0x80 → IsSpace b.toNat = true →
        (lit "foo").head? ≠ some b ∧ (lit "foo").getLast? ≠ some b :=
  parsed_words_clean.1 (lit "foo\r\nbar\r\n") (lit "foo") (by decide)

end Sego
